import Mathlib

/-!
Verification of the text diff engine of the toolkit repository
(`src/tools/diff.tsx`, class `DiffEngine`).

The engine splits each input text into lines, builds the classic LCS
dynamic-programming table, backtracks from `(m, n)` to `(0, 0)` collecting
`same` / `added` / `removed` operations (with a fixed tie-break that prefers
`added`), reverses them into forward order, and then merges every adjacent
`removed`-then-`added` pair into a single `changed` display row while
assigning 1-based line numbers.  A second copy of the same LCS alignment
runs at word granularity (`buildWordDiff`) for changed-line highlighting.

All definitions below are direct translations of the TypeScript source;
the backtracking `while` loops are modelled with an explicit fuel argument
(`fuel = i + j` suffices, as proved in the termination theorem).
-/

namespace ToolkitDiff

/-- Operation type emitted by the LCS backtrack (`DiffOp.type` in the source);
also used for `WordPart.kind`. -/
inductive OpType
  | same
  | added
  | removed
deriving DecidableEq, Repr

/-- One backtrack operation: `{type, line}` in the source. -/
structure DiffOp where
  type : OpType
  line : String
deriving DecidableEq, Repr

/-- Display status of a diff row (`LineStatus` in the source). -/
inductive LineStatus
  | same
  | changed
  | added
  | removed
deriving DecidableEq, Repr

/-- One display row (`DiffLine` in the source): absent line numbers are `none`,
and the non-participating side's content is `""` exactly as in the source. -/
structure DiffLine where
  left : String
  right : String
  status : LineStatus
  leftNumber : Option Nat
  rightNumber : Option Nat
deriving DecidableEq, Repr

/-- One word-level part (`WordPart` in the source). -/
structure WordPart where
  text : String
  kind : OpType
deriving DecidableEq, Repr

/-- Result record of `buildWordDiff`. -/
structure WordDiffResult where
  leftParts : List WordPart
  rightParts : List WordPart
  leadingLeft : String
  leadingRight : String
deriving DecidableEq, Repr

/-- Splitting a character list at every character satisfying `p`, keeping empty
segments: the semantics of JavaScript `String.prototype.split` with a
single-character (or single-class) separator. -/
def splitCharsP (p : Char → Bool) : List Char → List (List Char)
  | [] => [[]]
  | c :: cs =>
    match splitCharsP p cs with
    | [] => [[]]
    | grp :: rest => if p c then [] :: grp :: rest else (c :: grp) :: rest

/-- Model of `text.split("\n")` from the `DiffEngine` constructor:
`""` splits to `[""]`. -/
def splitLines (s : String) : List String :=
  (splitCharsP (fun c => c = '\n') s.data).map List.asString

/-- Model of `line.trim()`: drop leading and trailing whitespace. -/
def trimChars (s : List Char) : List Char :=
  ((s.dropWhile Char.isWhitespace).reverse.dropWhile Char.isWhitespace).reverse

/-- Model of the tokenizer in `buildWordDiff`:
`trimmed.length ? trimmed.split(/\s+/) : []`.  Splitting a trimmed string on
`/\s+/` equals splitting on single whitespace characters and discarding the
empty segments that arise inside a run. -/
def splitWords (line : String) : List String :=
  let trimmed := trimChars line.data
  if trimmed.length ≠ 0 then
    ((splitCharsP Char.isWhitespace trimmed).filter (fun w => w ≠ [])).map List.asString
  else []

/-- Model of `line.match(/^\s*/)?.[0] ?? ""`: the leading whitespace run. -/
def leadingWs (line : String) : String :=
  (line.data.takeWhile Char.isWhitespace).asString

/-- Row `i + 1` of the LCS table, given row `i` as `prev`
(the inner `for` loop of the table fill). -/
def dpRow (l r : List String) (prev : Nat → Nat) (i : Nat) : Nat → Nat
  | 0 => 0
  | j + 1 =>
    if l.getD i "" = r.getD j "" then prev j + 1
    else max (prev (j + 1)) (dpRow l r prev i j)

/-- The LCS dynamic-programming table of `buildLineDiff` / `buildWordDiff`:
`dpT l r i j` is `dp[i][j]` of the source (border rows and columns are `0`;
`dp[i][j] = dp[i-1][j-1] + 1` on equal elements, else
`max dp[i-1][j] dp[i][j-1]`). -/
def dpT (l r : List String) : Nat → Nat → Nat
  | 0 => fun _ => 0
  | i + 1 => dpRow l r (dpT l r i) i

/-- The backtracking `while (i > 0 || j > 0)` loop of `collectOps`, producing
operations in push order (reverse chronological).  The loop is modelled with a
fuel argument; any `fuel ≥ i + j` gives the loop's result since every
iteration strictly decreases `i + j`. -/
def collectOpsAux (l r : List String) : Nat → Nat → Nat → List DiffOp
  | 0, _, _ => []
  | fuel + 1, i, j =>
    if i > 0 ∧ j > 0 ∧ l.getD (i - 1) "" = r.getD (j - 1) "" then
      ⟨OpType.same, l.getD (i - 1) ""⟩ :: collectOpsAux l r fuel (i - 1) (j - 1)
    else if j > 0 ∧ (i = 0 ∨ dpT l r i (j - 1) ≥ dpT l r (i - 1) j) then
      ⟨OpType.added, r.getD (j - 1) ""⟩ :: collectOpsAux l r fuel i (j - 1)
    else if i > 0 then
      ⟨OpType.removed, l.getD (i - 1) ""⟩ :: collectOpsAux l r fuel (i - 1) j
    else []

/-- `DiffEngine.collectOps`: backtrack from `(m, n)` and reverse into forward
order. -/
def collectOps (l r : List String) : List DiffOp :=
  (collectOpsAux l r (l.length + r.length) l.length r.length).reverse

/-- `DiffEngine.toRows`: the forward scan that merges an adjacent
`removed`-then-`added` pair into one `changed` row and assigns the 1-based
line-number counters. -/
def toRows : List DiffOp → Nat → Nat → List DiffLine
  | [], _, _ => []
  | ⟨OpType.removed, x⟩ :: ⟨OpType.added, y⟩ :: rest, leftNo, rightNo =>
    ⟨x, y, LineStatus.changed, some leftNo, some rightNo⟩ ::
      toRows rest (leftNo + 1) (rightNo + 1)
  | ⟨OpType.same, x⟩ :: rest, leftNo, rightNo =>
    ⟨x, x, LineStatus.same, some leftNo, some rightNo⟩ ::
      toRows rest (leftNo + 1) (rightNo + 1)
  | ⟨OpType.removed, x⟩ :: rest, leftNo, rightNo =>
    ⟨x, "", LineStatus.removed, some leftNo, none⟩ :: toRows rest (leftNo + 1) rightNo
  | ⟨OpType.added, y⟩ :: rest, leftNo, rightNo =>
    ⟨"", y, LineStatus.added, none, some rightNo⟩ :: toRows rest leftNo (rightNo + 1)

/-- `DiffEngine.buildLineDiff` (the spec's `alignLines`): split both texts on
newline, collect the backtrack operations and build the display rows. -/
def buildLineDiff (leftText rightText : String) : List DiffLine :=
  toRows (collectOps (splitLines leftText) (splitLines rightText)) 1 1

/-- The backtracking `while (i > 0 || j > 0)` loop of `buildWordDiff` with its
two `unshift` accumulators for `leftParts` and `rightParts`, modelled with
fuel exactly like `collectOpsAux`. -/
def buildWordAux (lw rw : List String) : Nat → Nat → Nat →
    List WordPart × List WordPart → List WordPart × List WordPart
  | 0, _, _, acc => acc
  | fuel + 1, i, j, acc =>
    if i > 0 ∧ j > 0 ∧ lw.getD (i - 1) "" = rw.getD (j - 1) "" then
      buildWordAux lw rw fuel (i - 1) (j - 1)
        (⟨lw.getD (i - 1) "", OpType.same⟩ :: acc.1,
          ⟨rw.getD (j - 1) "", OpType.same⟩ :: acc.2)
    else if j > 0 ∧ (i = 0 ∨ dpT lw rw i (j - 1) ≥ dpT lw rw (i - 1) j) then
      buildWordAux lw rw fuel i (j - 1)
        (acc.1, ⟨rw.getD (j - 1) "", OpType.added⟩ :: acc.2)
    else if i > 0 then
      buildWordAux lw rw fuel (i - 1) j
        (⟨lw.getD (i - 1) "", OpType.removed⟩ :: acc.1, acc.2)
    else acc

/-- `DiffEngine.buildWordDiff` (the spec's `alignWords`). -/
def buildWordDiff (leftLine rightLine : String) : WordDiffResult :=
  let leftWords := splitWords leftLine
  let rightWords := splitWords rightLine
  let parts := buildWordAux leftWords rightWords
    (leftWords.length + rightWords.length) leftWords.length rightWords.length ([], [])
  ⟨parts.1, parts.2, leadingWs leftLine, leadingWs rightLine⟩

example : buildLineDiff "" "" = [⟨"", "", LineStatus.same, some 1, some 1⟩] := by decide

example : buildLineDiff "a\nb" "a\nx\nb" =
    [⟨"a", "a", LineStatus.same, some 1, some 1⟩,
     ⟨"", "x", LineStatus.added, none, some 2⟩,
     ⟨"b", "b", LineStatus.same, some 2, some 3⟩] := by decide

example : buildLineDiff "a\nb\nc" "a\nc" =
    [⟨"a", "a", LineStatus.same, some 1, some 1⟩,
     ⟨"b", "", LineStatus.removed, some 2, none⟩,
     ⟨"c", "c", LineStatus.same, some 3, some 2⟩] := by decide

example : (buildLineDiff "a\na" "a\nb").length = 3 ∧
    (buildLineDiff "a\nb" "a\na").length = 2 := by decide

example : buildWordDiff "  v 1.0" "v 1.1  " =
    ⟨[⟨"v", OpType.same⟩, ⟨"1.0", OpType.removed⟩],
     [⟨"v", OpType.same⟩, ⟨"1.1", OpType.added⟩], "  ", ""⟩ := by decide

/-- Does an operation consume a left line (`same` or `removed`)? -/
def isLeftOp (op : DiffOp) : Bool :=
  op.type == OpType.same || op.type == OpType.removed

/-- Does an operation consume a right line (`same` or `added`)? -/
def isRightOp (op : DiffOp) : Bool :=
  op.type == OpType.same || op.type == OpType.added

/-- The left line consumed by an operation, if any. -/
def opLeftLine (op : DiffOp) : Option String :=
  if isLeftOp op then some op.line else none

/-- The right line consumed by an operation, if any. -/
def opRightLine (op : DiffOp) : Option String :=
  if isRightOp op then some op.line else none

/-- Does a row carry left content (`same`, `changed` or `removed`)? -/
def isLeftStatus : LineStatus → Bool
  | LineStatus.same => true
  | LineStatus.changed => true
  | LineStatus.removed => true
  | LineStatus.added => false

/-- Does a row carry right content (`same`, `changed` or `added`)? -/
def isRightStatus : LineStatus → Bool
  | LineStatus.same => true
  | LineStatus.changed => true
  | LineStatus.removed => false
  | LineStatus.added => true

/-- The left content of a row, when the row carries left content. -/
def rowLeft (row : DiffLine) : Option String :=
  if isLeftStatus row.status then some row.left else none

/-- The right content of a row, when the row carries right content. -/
def rowRight (row : DiffLine) : Option String :=
  if isRightStatus row.status then some row.right else none

theorem filterMap_ite_eq_map_filter {α β : Type} (p : α → Bool) (f : α → β) (xs : List α) :
    xs.filterMap (fun a => if p a then some (f a) else none) = (xs.filter p).map f := by
  induction xs with
  | nil => rfl
  | cons a xs ih => by_cases h : p a <;> simp [List.filter_cons, h, ih]

theorem take_succ_reverse {α : Type} (l : List α) (n : Nat) (d : α) (h : n < l.length) :
    (l.take (n + 1)).reverse = l.getD n d :: (l.take n).reverse := by
  rw [List.take_succ, List.getElem?_eq_getElem h, List.getD_eq_getElem?_getD,
    List.getElem?_eq_getElem h]
  simp

theorem getD_mem {α : Type} (l : List α) (n : Nat) (d : α) (h : n < l.length) :
    l.getD n d ∈ l := by
  rw [List.getD_eq_getElem?_getD, List.getElem?_eq_getElem h]
  exact List.getElem_mem h

/-! ### The dynamic-programming table -/

theorem dpT_zero_left (l r : List String) (j : Nat) : dpT l r 0 j = 0 := rfl

theorem dpT_zero_right (l r : List String) : ∀ i, dpT l r i 0 = 0
  | 0 => rfl
  | _ + 1 => rfl

/-- Unfolding of the table at interior cells: exactly the source recurrence. -/
theorem dpT_succ_succ (l r : List String) (i j : Nat) :
    dpT l r (i + 1) (j + 1) =
      if l.getD i "" = r.getD j "" then dpT l r i j + 1
      else max (dpT l r i (j + 1)) (dpT l r (i + 1) j) := rfl

/-- The table is symmetric: swapping the two inputs transposes it. -/
theorem dpT_comm (l r : List String) : ∀ i j, dpT l r i j = dpT r l j i := by
  intro i
  induction i with
  | zero => intro j; rw [dpT_zero_left, dpT_zero_right]
  | succ i ih =>
    intro j
    induction j with
    | zero => rw [dpT_zero_right, dpT_zero_left]
    | succ j ihj =>
      rw [dpT_succ_succ, dpT_succ_succ]
      by_cases h : l.getD i "" = r.getD j ""
      · rw [if_pos h, if_pos h.symm, ih j]
      · rw [if_neg h, if_neg (fun hh => h hh.symm), ih (j + 1), ihj, Nat.max_comm]

/-! ### Basic facts about the backtracking loop -/

theorem collectOpsAux_zero_zero (l r : List String) :
    ∀ fuel, collectOpsAux l r fuel 0 0 = []
  | 0 => rfl
  | _ + 1 => by simp [collectOpsAux]

/-- The backtrack result does not depend on the fuel, as long as the fuel is at
least `i + j` (each loop iteration strictly decreases `i + j`). -/
theorem collectOpsAux_fuel_congr (l r : List String) :
    ∀ fuel fuel' i j, i + j ≤ fuel → i + j ≤ fuel' →
      collectOpsAux l r fuel i j = collectOpsAux l r fuel' i j := by
  intro fuel
  induction fuel with
  | zero =>
    intro fuel' i j h h'
    obtain ⟨rfl, rfl⟩ : i = 0 ∧ j = 0 := by omega
    rw [collectOpsAux_zero_zero, collectOpsAux_zero_zero]
  | succ fuel ih =>
    intro fuel' i j h h'
    cases fuel' with
    | zero =>
      obtain ⟨rfl, rfl⟩ : i = 0 ∧ j = 0 := by omega
      rw [collectOpsAux_zero_zero, collectOpsAux_zero_zero]
    | succ fuel' =>
      simp only [collectOpsAux]
      by_cases h1 : i > 0 ∧ j > 0 ∧ l.getD (i - 1) "" = r.getD (j - 1) ""
      · have hi0 : 0 < i := h1.1
        have hj0 : 0 < j := h1.2.1
        rw [if_pos h1, if_pos h1, ih fuel' (i - 1) (j - 1) (by omega) (by omega)]
      · rw [if_neg h1, if_neg h1]
        by_cases h2 : j > 0 ∧ (i = 0 ∨ dpT l r i (j - 1) ≥ dpT l r (i - 1) j)
        · have hj0 : 0 < j := h2.1
          rw [if_pos h2, if_pos h2, ih fuel' i (j - 1) (by omega) (by omega)]
        · rw [if_neg h2, if_neg h2]
          by_cases h3 : i > 0
          · rw [if_pos h3, if_pos h3, ih fuel' (i - 1) j (by omega) (by omega)]
          · rw [if_neg h3, if_neg h3]

@[simp] theorem opLeftLine_same (x : String) :
    opLeftLine ⟨OpType.same, x⟩ = some x := rfl

@[simp] theorem opLeftLine_removed (x : String) :
    opLeftLine ⟨OpType.removed, x⟩ = some x := rfl

@[simp] theorem opLeftLine_added (x : String) :
    opLeftLine ⟨OpType.added, x⟩ = none := rfl

@[simp] theorem opRightLine_same (x : String) :
    opRightLine ⟨OpType.same, x⟩ = some x := rfl

@[simp] theorem opRightLine_added (x : String) :
    opRightLine ⟨OpType.added, x⟩ = some x := rfl

@[simp] theorem opRightLine_removed (x : String) :
    opRightLine ⟨OpType.removed, x⟩ = none := rfl

/-- The backtrack from `(i, j)` consumes exactly the first `i` left lines and
the first `j` right lines, in reverse order (push order runs from the end of
the inputs toward the start). -/
theorem collectOpsAux_lines (l r : List String) :
    ∀ fuel i j, i + j ≤ fuel → i ≤ l.length → j ≤ r.length →
      (collectOpsAux l r fuel i j).filterMap opLeftLine = (l.take i).reverse ∧
      (collectOpsAux l r fuel i j).filterMap opRightLine = (r.take j).reverse := by
  intro fuel
  induction fuel with
  | zero =>
    intro i j h hi hj
    obtain ⟨rfl, rfl⟩ : i = 0 ∧ j = 0 := by omega
    simp [collectOpsAux]
  | succ fuel ih =>
    intro i j h hi hj
    simp only [collectOpsAux]
    by_cases h1 : i > 0 ∧ j > 0 ∧ l.getD (i - 1) "" = r.getD (j - 1) ""
    · have hi0 : 0 < i := h1.1
      have hj0 : 0 < j := h1.2.1
      obtain ⟨i, rfl⟩ : ∃ i', i = i' + 1 := ⟨i - 1, by omega⟩
      obtain ⟨j, rfl⟩ : ∃ j', j = j' + 1 := ⟨j - 1, by omega⟩
      rw [if_pos h1]
      simp only [Nat.add_sub_cancel]
      have heq : l.getD i "" = r.getD j "" := by
        simpa only [Nat.add_sub_cancel] using h1.2.2
      have H := ih i j (by omega) (by omega) (by omega)
      rw [take_succ_reverse l i "" (by omega), take_succ_reverse r j "" (by omega)]
      simp [List.filterMap_cons, H.1, H.2]
      simpa using heq
    · rw [if_neg h1]
      by_cases h2 : j > 0 ∧ (i = 0 ∨ dpT l r i (j - 1) ≥ dpT l r (i - 1) j)
      · have hj0 : 0 < j := h2.1
        obtain ⟨j, rfl⟩ : ∃ j', j = j' + 1 := ⟨j - 1, by omega⟩
        rw [if_pos h2]
        have H := ih i j (by omega) (by omega) (by omega)
        rw [take_succ_reverse r j "" (by omega)]
        simp only [Nat.add_sub_cancel]
        simp [List.filterMap_cons, H.1, H.2]
      · rw [if_neg h2]
        by_cases h3 : i > 0
        · obtain ⟨i, rfl⟩ : ∃ i', i = i' + 1 := ⟨i - 1, by omega⟩
          rw [if_pos h3]
          have H := ih i j (by omega) (by omega) (by omega)
          rw [take_succ_reverse l i "" (by omega)]
          simp only [Nat.add_sub_cancel]
          simp [List.filterMap_cons, H.1, H.2]
        · have hi : i = 0 := by omega
          have hj : j = 0 := by
            by_contra hj
            exact h2 ⟨by omega, Or.inl hi⟩
          subst hi; subst hj
          simp

/-- Every backtrack operation carries a line of one of the two inputs. -/
theorem collectOpsAux_mem (l r : List String) :
    ∀ fuel i j, i ≤ l.length → j ≤ r.length →
      ∀ op ∈ collectOpsAux l r fuel i j, op.line ∈ l ∨ op.line ∈ r := by
  intro fuel
  induction fuel with
  | zero => intro i j _ _ op hop; simp [collectOpsAux] at hop
  | succ fuel ih =>
    intro i j hi hj op hop
    simp only [collectOpsAux] at hop
    by_cases h1 : i > 0 ∧ j > 0 ∧ l.getD (i - 1) "" = r.getD (j - 1) ""
    · rw [if_pos h1] at hop
      rcases List.mem_cons.mp hop with rfl | hop
      · exact Or.inl (getD_mem l (i - 1) "" (by omega))
      · exact ih (i - 1) (j - 1) (by omega) (by omega) op hop
    · rw [if_neg h1] at hop
      by_cases h2 : j > 0 ∧ (i = 0 ∨ dpT l r i (j - 1) ≥ dpT l r (i - 1) j)
      · rw [if_pos h2] at hop
        rcases List.mem_cons.mp hop with rfl | hop
        · exact Or.inr (getD_mem r (j - 1) "" (by omega))
        · exact ih i (j - 1) (by omega) (by omega) op hop
      · rw [if_neg h2] at hop
        by_cases h3 : i > 0
        · rw [if_pos h3] at hop
          rcases List.mem_cons.mp hop with rfl | hop
          · exact Or.inl (getD_mem l (i - 1) "" (by omega))
          · exact ih (i - 1) j (by omega) (by omega) op hop
        · rw [if_neg h3] at hop
          simp at hop

/-- Is an operation a `same` operation? -/
def isSameOp (op : DiffOp) : Bool := op.type == OpType.same

/-- The number of `same` operations emitted by the backtrack from `(i, j)` is
exactly the table entry `dp[i][j]`. -/
theorem collectOpsAux_same_count (l r : List String) :
    ∀ fuel i j, i + j ≤ fuel →
      (collectOpsAux l r fuel i j).countP isSameOp = dpT l r i j := by
  intro fuel
  induction fuel with
  | zero =>
    intro i j h
    obtain ⟨rfl, rfl⟩ : i = 0 ∧ j = 0 := by omega
    simp [collectOpsAux, dpT_zero_left]
  | succ fuel ih =>
    intro i j h
    simp only [collectOpsAux]
    by_cases h1 : i > 0 ∧ j > 0 ∧ l.getD (i - 1) "" = r.getD (j - 1) ""
    · have hi0 : 0 < i := h1.1
      have hj0 : 0 < j := h1.2.1
      obtain ⟨i, rfl⟩ : ∃ i', i = i' + 1 := ⟨i - 1, by omega⟩
      obtain ⟨j, rfl⟩ : ∃ j', j = j' + 1 := ⟨j - 1, by omega⟩
      rw [if_pos h1]
      simp only [Nat.add_sub_cancel]
      have heq : l.getD i "" = r.getD j "" := by
        simpa only [Nat.add_sub_cancel] using h1.2.2
      rw [List.countP_cons_of_pos _ _ (by simp [isSameOp]),
        ih i j (by omega), dpT_succ_succ, if_pos heq]
    · rw [if_neg h1]
      by_cases h2 : j > 0 ∧ (i = 0 ∨ dpT l r i (j - 1) ≥ dpT l r (i - 1) j)
      · have hj0 : 0 < j := h2.1
        obtain ⟨j, rfl⟩ : ∃ j', j = j' + 1 := ⟨j - 1, by omega⟩
        rw [if_pos h2]
        simp only [Nat.add_sub_cancel] at h2 ⊢
        rw [List.countP_cons_of_neg _ _ (by simp [isSameOp]), ih i j (by omega)]
        cases i with
        | zero => rw [dpT_zero_left, dpT_zero_left]
        | succ i =>
          have hne : ¬ l.getD i "" = r.getD j "" := by
            intro heq
            exact h1 ⟨by omega, by omega, by simpa only [Nat.add_sub_cancel] using heq⟩
          have hge : dpT l r (i + 1) j ≥ dpT l r i (j + 1) := by
            rcases h2.2 with hc | hc
            · omega
            · exact hc
          rw [dpT_succ_succ, if_neg hne, Nat.max_eq_right hge]
      · rw [if_neg h2]
        by_cases h3 : i > 0
        · obtain ⟨i, rfl⟩ : ∃ i', i = i' + 1 := ⟨i - 1, by omega⟩
          rw [if_pos h3]
          simp only [Nat.add_sub_cancel]
          rw [List.countP_cons_of_neg _ _ (by simp [isSameOp]), ih i j (by omega)]
          cases j with
          | zero => rw [dpT_zero_right, dpT_zero_right]
          | succ j =>
            have hne : ¬ l.getD i "" = r.getD j "" := by
              intro heq
              exact h1 ⟨by omega, by omega, by simpa only [Nat.add_sub_cancel] using heq⟩
            have hlt : ¬ dpT l r (i + 1) j ≥ dpT l r i (j + 1) := by
              intro hge
              exact h2 ⟨by omega, Or.inr (by simpa only [Nat.add_sub_cancel] using hge)⟩
            rw [dpT_succ_succ, if_neg hne, Nat.max_eq_left (by omega)]
        · have hi : i = 0 := by omega
          have hj : j = 0 := by
            by_contra hj
            exact h2 ⟨by omega, Or.inl hi⟩
          subst hi; subst hj
          simp [dpT_zero_left]

/-- When the backtrack emits a `removed` operation first, the left cursor was
positive and the operation carries the left line at `i - 1`. -/
theorem collectOpsAux_head_removed (l r : List String) :
    ∀ fuel i j x rest,
      collectOpsAux l r fuel i j = ⟨OpType.removed, x⟩ :: rest →
      0 < i ∧ x = l.getD (i - 1) "" := by
  intro fuel i j x rest hEq
  cases fuel with
  | zero => simp [collectOpsAux] at hEq
  | succ fuel =>
    simp only [collectOpsAux] at hEq
    by_cases h1 : i > 0 ∧ j > 0 ∧ l.getD (i - 1) "" = r.getD (j - 1) ""
    · rw [if_pos h1] at hEq
      simp at hEq
    · rw [if_neg h1] at hEq
      by_cases h2 : j > 0 ∧ (i = 0 ∨ dpT l r i (j - 1) ≥ dpT l r (i - 1) j)
      · rw [if_pos h2] at hEq
        simp at hEq
      · rw [if_neg h2] at hEq
        by_cases h3 : i > 0
        · rw [if_pos h3] at hEq
          simp only [List.cons.injEq, DiffOp.mk.injEq] at hEq
          exact ⟨h3, hEq.1.2.symm⟩
        · rw [if_neg h3] at hEq
          simp at hEq

/-- Relation between push-order neighbours: an `added` operation immediately
followed (in push order) by a `removed` operation carries a different line,
because otherwise the backtrack would have taken the `same` branch. -/
def opsRel (a b : DiffOp) : Prop :=
  a.type = OpType.added → b.type = OpType.removed → a.line ≠ b.line

theorem collectOpsAux_chain (l r : List String) :
    ∀ fuel i j, List.Chain' opsRel (collectOpsAux l r fuel i j) := by
  intro fuel
  induction fuel with
  | zero => intro i j; simp [collectOpsAux]
  | succ fuel ih =>
    intro i j
    simp only [collectOpsAux]
    by_cases h1 : i > 0 ∧ j > 0 ∧ l.getD (i - 1) "" = r.getD (j - 1) ""
    · rw [if_pos h1, List.chain'_cons']
      refine ⟨?_, ih (i - 1) (j - 1)⟩
      intro b _ hadd _
      simp at hadd
    · rw [if_neg h1]
      by_cases h2 : j > 0 ∧ (i = 0 ∨ dpT l r i (j - 1) ≥ dpT l r (i - 1) j)
      · rw [if_pos h2, List.chain'_cons']
        refine ⟨?_, ih i (j - 1)⟩
        intro b hb hadd hrem
        obtain ⟨t, ht⟩ : ∃ t, collectOpsAux l r fuel i (j - 1) = b :: t := by
          cases hx : collectOpsAux l r fuel i (j - 1) with
          | nil => rw [hx] at hb; simp at hb
          | cons c t =>
            rw [hx] at hb
            simp at hb
            exact ⟨t, by rw [hb]⟩
        have hbeq : b = (⟨OpType.removed, b.line⟩ : DiffOp) := by
          cases b
          simp only [DiffOp.mk.injEq]
          exact ⟨hrem, trivial⟩
        obtain ⟨hi0, hxline⟩ :=
          collectOpsAux_head_removed l r fuel i (j - 1) b.line t (by rw [ht, ← hbeq])
        have hne : ¬ l.getD (i - 1) "" = r.getD (j - 1) "" :=
          fun hc => h1 ⟨hi0, h2.1, hc⟩
        intro hc
        rw [hxline] at hc
        exact hne hc.symm
      · rw [if_neg h2]
        by_cases h3 : i > 0
        · rw [if_pos h3, List.chain'_cons']
          refine ⟨?_, ih (i - 1) j⟩
          intro b _ hadd _
          simp at hadd
        · rw [if_neg h3]
          simp

/-- Forward-order version: in `collectOps` an adjacent `removed`-then-`added`
pair always carries two different lines. -/
theorem collectOps_chain (l r : List String) :
    List.Chain' (flip opsRel) (collectOps l r) := by
  unfold collectOps
  rw [List.chain'_reverse]
  exact collectOpsAux_chain l r (l.length + r.length) l.length r.length

@[simp] theorem isLeftOp_same (x : String) : isLeftOp ⟨OpType.same, x⟩ = true := rfl

@[simp] theorem isLeftOp_added (x : String) : isLeftOp ⟨OpType.added, x⟩ = false := rfl

@[simp] theorem isLeftOp_removed (x : String) : isLeftOp ⟨OpType.removed, x⟩ = true := rfl

@[simp] theorem isRightOp_same (x : String) : isRightOp ⟨OpType.same, x⟩ = true := rfl

@[simp] theorem isRightOp_added (x : String) : isRightOp ⟨OpType.added, x⟩ = true := rfl

@[simp] theorem isRightOp_removed (x : String) :
    isRightOp ⟨OpType.removed, x⟩ = false := rfl

@[simp] theorem isSameOp_same (x : String) : isSameOp ⟨OpType.same, x⟩ = true := rfl

@[simp] theorem isSameOp_added (x : String) : isSameOp ⟨OpType.added, x⟩ = false := rfl

@[simp] theorem isSameOp_removed (x : String) :
    isSameOp ⟨OpType.removed, x⟩ = false := rfl

@[simp] theorem rowLeft_mk (x y : String) (st : LineStatus) (a b : Option Nat) :
    rowLeft ⟨x, y, st, a, b⟩ = if isLeftStatus st then some x else none := rfl

@[simp] theorem rowRight_mk (x y : String) (st : LineStatus) (a b : Option Nat) :
    rowRight ⟨x, y, st, a, b⟩ = if isRightStatus st then some y else none := rfl

/-- Unfolding of `toRows` for a `removed` operation whose successor is not an
`added` operation (so no merge happens). -/
theorem toRows_removed_cons (x : String) (rest : List DiffOp) (ln rn : Nat)
    (h : ∀ y t, rest ≠ (⟨OpType.added, y⟩ : DiffOp) :: t) :
    toRows (⟨OpType.removed, x⟩ :: rest) ln rn =
      ⟨x, "", LineStatus.removed, some ln, none⟩ :: toRows rest (ln + 1) rn := by
  cases rest with
  | nil => rfl
  | cons b t =>
    cases b with
    | mk ty w =>
      cases ty with
      | added => exact absurd rfl (h w t)
      | same => rfl
      | removed => rfl

/-- The rows' left/right contents are exactly the consumed lines of the
operation sequence, in order; the merge step never loses or reorders a line. -/
theorem toRows_contents (ops : List DiffOp) (ln rn : Nat) :
    (toRows ops ln rn).filterMap rowLeft = ops.filterMap opLeftLine ∧
    (toRows ops ln rn).filterMap rowRight = ops.filterMap opRightLine := by
  induction ops, ln, rn using toRows.induct with
  | case1 ln rn => simp [toRows]
  | case2 x y rest ln rn ih =>
    simp [toRows, List.filterMap_cons, isLeftStatus, isRightStatus, ih.1, ih.2]
  | case3 x rest ln rn ih =>
    simp [toRows, List.filterMap_cons, isLeftStatus, isRightStatus, ih.1, ih.2]
  | case4 x rest ln rn hno ih =>
    rw [toRows_removed_cons x rest ln rn (fun y t hc => hno y t hc)]
    simp [List.filterMap_cons, isLeftStatus, isRightStatus, ih.1, ih.2]
  | case5 y rest ln rn ih =>
    simp [toRows, List.filterMap_cons, isLeftStatus, isRightStatus, ih.1, ih.2]

/-- The line numbers attached to the rows: on each side they are the
consecutive integers starting at the respective counter. -/
theorem toRows_numbers (ops : List DiffOp) (ln rn : Nat) :
    (toRows ops ln rn).filterMap (fun row => row.leftNumber) =
        List.range' ln (ops.countP isLeftOp) ∧
    (toRows ops ln rn).filterMap (fun row => row.rightNumber) =
        List.range' rn (ops.countP isRightOp) := by
  induction ops, ln, rn using toRows.induct with
  | case1 ln rn => simp [toRows]
  | case2 x y rest ln rn ih =>
    simp [toRows, List.filterMap_cons, List.countP_cons, ih.1, ih.2, List.range'_succ]
  | case3 x rest ln rn ih =>
    simp [toRows, List.filterMap_cons, List.countP_cons, ih.1, ih.2, List.range'_succ]
  | case4 x rest ln rn hno ih =>
    rw [toRows_removed_cons x rest ln rn (fun y t hc => hno y t hc)]
    simp [List.filterMap_cons, List.countP_cons, ih.1, ih.2, List.range'_succ]
  | case5 y rest ln rn ih =>
    simp [toRows, List.filterMap_cons, List.countP_cons, ih.1, ih.2, List.range'_succ]

/-- Each `same` operation yields exactly one `same` row; merges only involve
`removed`/`added` operations. -/
theorem toRows_same_count (ops : List DiffOp) (ln rn : Nat) :
    (toRows ops ln rn).countP (fun row => row.status == LineStatus.same) =
      ops.countP isSameOp := by
  induction ops, ln, rn using toRows.induct with
  | case1 ln rn => simp [toRows]
  | case2 x y rest ln rn ih => simp [toRows, List.countP_cons, ih]
  | case3 x rest ln rn ih => simp [toRows, List.countP_cons, ih]
  | case4 x rest ln rn hno ih =>
    rw [toRows_removed_cons x rest ln rn (fun y t hc => hno y t hc)]
    simp [List.countP_cons, ih]
  | case5 y rest ln rn ih => simp [toRows, List.countP_cons, ih]

/-- A row carries a line number on a side exactly when its status consumes a
line from that side. -/
theorem toRows_presence (ops : List DiffOp) (ln rn : Nat) :
    (toRows ops ln rn).all (fun row =>
      (row.leftNumber.isSome == isLeftStatus row.status) &&
        (row.rightNumber.isSome == isRightStatus row.status)) = true := by
  induction ops, ln, rn using toRows.induct with
  | case1 ln rn => simp [toRows]
  | case2 x y rest ln rn ih => simpa [toRows, isLeftStatus, isRightStatus] using ih
  | case3 x rest ln rn ih => simpa [toRows, isLeftStatus, isRightStatus] using ih
  | case4 x rest ln rn hno ih =>
    rw [toRows_removed_cons x rest ln rn (fun y t hc => hno y t hc)]
    simpa [isLeftStatus, isRightStatus] using ih
  | case5 y rest ln rn ih => simpa [toRows, isLeftStatus, isRightStatus] using ih

/-- If adjacent `removed`-then-`added` operations always carry different
lines, then every `changed` row has different left and right contents. -/
theorem toRows_changed_ne (ops : List DiffOp) (ln rn : Nat)
    (hchain : List.Chain' (flip opsRel) ops) :
    (toRows ops ln rn).all (fun row =>
      !(row.status == LineStatus.changed && row.left == row.right)) = true := by
  induction ops, ln, rn using toRows.induct with
  | case1 ln rn => simp [toRows]
  | case2 x y rest ln rn ih =>
    rw [List.chain'_cons] at hchain
    have hxy : y ≠ x := hchain.1 rfl rfl
    have hrest : List.Chain' (flip opsRel) rest := hchain.2.tail
    simp only [toRows, List.all_cons, Bool.and_eq_true]
    constructor
    · simp
      exact fun hc => hxy hc.symm
    · simpa using ih hrest
  | case3 x rest ln rn ih =>
    have hrest : List.Chain' (flip opsRel) rest := hchain.tail
    simpa [toRows] using ih hrest
  | case4 x rest ln rn hno ih =>
    have hrest : List.Chain' (flip opsRel) rest := hchain.tail
    rw [toRows_removed_cons x rest ln rn (fun y t hc => hno y t hc)]
    simpa using ih hrest
  | case5 y rest ln rn ih =>
    have hrest : List.Chain' (flip opsRel) rest := hchain.tail
    simpa [toRows] using ih hrest

/-- Appending behind a prefix: when the suffix does not start with an `added`
operation, no merge happens across the boundary, so the scan processes the
prefix and the suffix independently, with the counters advanced by the number
of lines the prefix consumed on each side. -/
theorem toRows_append (suf : List DiffOp)
    (hsuf : ∀ y t, suf ≠ (⟨OpType.added, y⟩ : DiffOp) :: t) :
    ∀ pre ln rn, toRows (pre ++ suf) ln rn =
      toRows pre ln rn ++
        toRows suf (ln + pre.countP isLeftOp) (rn + pre.countP isRightOp) := by
  intro pre ln rn
  induction pre, ln, rn using toRows.induct with
  | case1 ln rn => simp [toRows]
  | case2 x y rest ln rn ih =>
    have e1 : ln + List.countP isLeftOp
        (⟨OpType.removed, x⟩ :: ⟨OpType.added, y⟩ :: rest) =
        ln + 1 + List.countP isLeftOp rest := by
      simp [List.countP_cons]
      omega
    have e2 : rn + List.countP isRightOp
        (⟨OpType.removed, x⟩ :: ⟨OpType.added, y⟩ :: rest) =
        rn + 1 + List.countP isRightOp rest := by
      simp [List.countP_cons]
      omega
    rw [e1, e2]
    simp only [List.cons_append, toRows, List.append_eq]
    rw [ih]
  | case3 x rest ln rn ih =>
    have e1 : ln + List.countP isLeftOp (⟨OpType.same, x⟩ :: rest) =
        ln + 1 + List.countP isLeftOp rest := by
      simp [List.countP_cons]
      omega
    have e2 : rn + List.countP isRightOp (⟨OpType.same, x⟩ :: rest) =
        rn + 1 + List.countP isRightOp rest := by
      simp [List.countP_cons]
      omega
    rw [e1, e2]
    simp only [List.cons_append, toRows, List.append_eq]
    rw [ih]
  | case4 x rest ln rn hno ih =>
    have hno2 : ∀ y t, rest ++ suf ≠ (⟨OpType.added, y⟩ : DiffOp) :: t := by
      intro y t hc
      cases rest with
      | nil => exact hsuf y t (by simpa using hc)
      | cons c t' =>
        simp only [List.cons_append, List.cons.injEq] at hc
        exact hno y t' (by rw [hc.1])
    have e1 : ln + List.countP isLeftOp (⟨OpType.removed, x⟩ :: rest) =
        ln + 1 + List.countP isLeftOp rest := by
      simp [List.countP_cons]
      omega
    have e2 : rn + List.countP isRightOp (⟨OpType.removed, x⟩ :: rest) =
        rn + List.countP isRightOp rest := by
      simp [List.countP_cons]
    rw [e1, e2, List.cons_append,
      toRows_removed_cons x (rest ++ suf) ln rn hno2,
      toRows_removed_cons x rest ln rn (fun y t hc => hno y t hc), ih]
    simp [List.cons_append]
  | case5 y rest ln rn ih =>
    have e1 : ln + List.countP isLeftOp (⟨OpType.added, y⟩ :: rest) =
        ln + List.countP isLeftOp rest := by
      simp [List.countP_cons]
    have e2 : rn + List.countP isRightOp (⟨OpType.added, y⟩ :: rest) =
        rn + 1 + List.countP isRightOp rest := by
      simp [List.countP_cons]
      omega
    rw [e1, e2]
    simp only [List.cons_append, toRows, List.append_eq]
    rw [ih]

/-- A pure sequence of `same` operations produces the corresponding `same`
rows with both counters advancing together. -/
theorem toRows_sames : ∀ (xs : List String) (n : Nat),
    toRows (xs.map (fun x => (⟨OpType.same, x⟩ : DiffOp))) n n =
      ((List.range' n xs.length).zip xs).map
        (fun p => ⟨p.2, p.2, LineStatus.same, some p.1, some p.1⟩) := by
  intro xs
  induction xs with
  | nil => intro n; simp [toRows]
  | cons x xs ih =>
    intro n
    simp [toRows, List.range'_succ, ih (n + 1)]

/-- On two equal inputs the backtrack always takes the diagonal branch. -/
theorem collectOpsAux_self (l : List String) :
    ∀ fuel k, k + k ≤ fuel → k ≤ l.length →
      collectOpsAux l l fuel k k =
        ((l.take k).reverse).map (fun x => (⟨OpType.same, x⟩ : DiffOp)) := by
  intro fuel
  induction fuel with
  | zero =>
    intro k h hk
    obtain rfl : k = 0 := by omega
    simp [collectOpsAux]
  | succ fuel ih =>
    intro k h hk
    cases k with
    | zero => rw [collectOpsAux_zero_zero]; simp
    | succ k =>
      simp only [collectOpsAux]
      rw [if_pos (show k + 1 > 0 ∧ k + 1 > 0 ∧ True from
        ⟨Nat.succ_pos k, Nat.succ_pos k, trivial⟩)]
      simp only [Nat.add_sub_cancel]
      rw [ih k (by omega) (by omega), take_succ_reverse l k "" (by omega)]
      simp

/-- `collectOps` on two equal line lists is one `same` operation per line. -/
theorem collectOps_self (l : List String) :
    collectOps l l = l.map (fun x => (⟨OpType.same, x⟩ : DiffOp)) := by
  unfold collectOps
  rw [collectOpsAux_self l (l.length + l.length) l.length (by omega) (le_refl _)]
  rw [List.map_reverse, List.reverse_reverse, List.take_length]

theorem take_succ_getD {α : Type} (l : List α) (i : Nat) (d : α) (h : i < l.length) :
    l.take (i + 1) = l.take i ++ [l.getD i d] := by
  rw [List.take_succ, List.getElem?_eq_getElem h, List.getD_eq_getElem?_getD,
    List.getElem?_eq_getElem h]
  rfl

/-- Texts accumulated by the word-diff backtrack: the loop prepends exactly
the first `i` left words (to the left accumulator) and the first `j` right
words (to the right accumulator), in order. -/
theorem buildWordAux_texts (lw rw : List String) :
    ∀ fuel i j accL accR, i + j ≤ fuel → i ≤ lw.length → j ≤ rw.length →
      (buildWordAux lw rw fuel i j (accL, accR)).1.map (fun p => p.text) =
          lw.take i ++ accL.map (fun p => p.text) ∧
      (buildWordAux lw rw fuel i j (accL, accR)).2.map (fun p => p.text) =
          rw.take j ++ accR.map (fun p => p.text) := by
  intro fuel
  induction fuel with
  | zero =>
    intro i j accL accR h hi hj
    obtain ⟨rfl, rfl⟩ : i = 0 ∧ j = 0 := by omega
    simp [buildWordAux]
  | succ fuel ih =>
    intro i j accL accR h hi hj
    simp only [buildWordAux]
    by_cases h1 : i > 0 ∧ j > 0 ∧ lw.getD (i - 1) "" = rw.getD (j - 1) ""
    · have hi0 : 0 < i := h1.1
      have hj0 : 0 < j := h1.2.1
      obtain ⟨i, rfl⟩ : ∃ i', i = i' + 1 := ⟨i - 1, by omega⟩
      obtain ⟨j, rfl⟩ : ∃ j', j = j' + 1 := ⟨j - 1, by omega⟩
      rw [if_pos h1]
      simp only [Nat.add_sub_cancel]
      have H := ih i j (⟨lw.getD i "", OpType.same⟩ :: accL)
        (⟨rw.getD j "", OpType.same⟩ :: accR) (by omega) (by omega) (by omega)
      rw [H.1, H.2, take_succ_getD lw i "" (by omega), take_succ_getD rw j "" (by omega)]
      simp
    · rw [if_neg h1]
      by_cases h2 : j > 0 ∧ (i = 0 ∨ dpT lw rw i (j - 1) ≥ dpT lw rw (i - 1) j)
      · have hj0 : 0 < j := h2.1
        obtain ⟨j, rfl⟩ : ∃ j', j = j' + 1 := ⟨j - 1, by omega⟩
        rw [if_pos h2]
        simp only [Nat.add_sub_cancel]
        have H := ih i j accL (⟨rw.getD j "", OpType.added⟩ :: accR)
          (by omega) (by omega) (by omega)
        rw [H.1, H.2, take_succ_getD rw j "" (by omega)]
        simp
      · rw [if_neg h2]
        by_cases h3 : i > 0
        · obtain ⟨i, rfl⟩ : ∃ i', i = i' + 1 := ⟨i - 1, by omega⟩
          rw [if_pos h3]
          simp only [Nat.add_sub_cancel]
          have H := ih i j (⟨lw.getD i "", OpType.removed⟩ :: accL) accR
            (by omega) (by omega) (by omega)
          rw [H.1, H.2, take_succ_getD lw i "" (by omega)]
          simp
        · have hi0 : i = 0 := by omega
          have hj0 : j = 0 := by
            by_contra hj0
            exact h2 ⟨by omega, Or.inl hi0⟩
          subst hi0; subst hj0
          simp

/-- Kind invariants of the word-diff backtrack: the left accumulator never
receives an `added` part, the right accumulator never receives a `removed`
part, and the `same` parts arrive in lockstep with equal texts. -/
theorem buildWordAux_kinds (lw rw : List String) :
    ∀ fuel i j accL accR,
      accL.all (fun p => !(p.kind == OpType.added)) = true →
      accR.all (fun p => !(p.kind == OpType.removed)) = true →
      (accL.filter (fun p => p.kind == OpType.same)).map (fun p => p.text) =
        (accR.filter (fun p => p.kind == OpType.same)).map (fun p => p.text) →
      (buildWordAux lw rw fuel i j (accL, accR)).1.all
          (fun p => !(p.kind == OpType.added)) = true ∧
      (buildWordAux lw rw fuel i j (accL, accR)).2.all
          (fun p => !(p.kind == OpType.removed)) = true ∧
      ((buildWordAux lw rw fuel i j (accL, accR)).1.filter
          (fun p => p.kind == OpType.same)).map (fun p => p.text) =
        ((buildWordAux lw rw fuel i j (accL, accR)).2.filter
          (fun p => p.kind == OpType.same)).map (fun p => p.text) := by
  intro fuel
  induction fuel with
  | zero =>
    intro i j accL accR hL hR hS
    exact ⟨hL, hR, hS⟩
  | succ fuel ih =>
    intro i j accL accR hL hR hS
    simp only [buildWordAux]
    by_cases h1 : i > 0 ∧ j > 0 ∧ lw.getD (i - 1) "" = rw.getD (j - 1) ""
    · rw [if_pos h1]
      refine ih (i - 1) (j - 1) (⟨lw.getD (i - 1) "", OpType.same⟩ :: accL)
        (⟨rw.getD (j - 1) "", OpType.same⟩ :: accR) ?_ ?_ ?_
      · simpa using hL
      · simpa using hR
      · have heq := h1.2.2
        simp only [List.filter_cons]
        simp [hS]
        simpa using heq
    · rw [if_neg h1]
      by_cases h2 : j > 0 ∧ (i = 0 ∨ dpT lw rw i (j - 1) ≥ dpT lw rw (i - 1) j)
      · rw [if_pos h2]
        refine ih i (j - 1) accL (⟨rw.getD (j - 1) "", OpType.added⟩ :: accR) hL ?_ ?_
        · simpa using hR
        · simp only [List.filter_cons]
          simp [hS]
      · rw [if_neg h2]
        by_cases h3 : i > 0
        · rw [if_pos h3]
          refine ih (i - 1) j (⟨lw.getD (i - 1) "", OpType.removed⟩ :: accL) accR ?_ hR ?_
          · simpa using hL
          · simp only [List.filter_cons]
            simp [hS]
        · rw [if_neg h3]
          exact ⟨hL, hR, hS⟩

/-- One backtrack step exactly as the specification words it: no step at
`(0, 0)`; the diagonal `same` step when both indices are positive and the
lines at `i - 1`, `j - 1` are equal; otherwise `added` (consuming a right
line) when `j > 0` and (`i = 0` or `dp[i][j-1] ≥ dp[i-1][j]`); otherwise
`removed`. -/
def specStep (l r : List String) (i j : Nat) : Option (DiffOp × Nat × Nat) :=
  if i = 0 ∧ j = 0 then none
  else if i > 0 ∧ j > 0 ∧ l.getD (i - 1) "" = r.getD (j - 1) "" then
    some (⟨OpType.same, l.getD (i - 1) ""⟩, i - 1, j - 1)
  else if j > 0 ∧ (i = 0 ∨ dpT l r i (j - 1) ≥ dpT l r (i - 1) j) then
    some (⟨OpType.added, r.getD (j - 1) ""⟩, i, j - 1)
  else
    some (⟨OpType.removed, l.getD (i - 1) ""⟩, i - 1, j)

/-- Iterating the specification's step relation, collecting the emitted
operations in emission order. -/
def specBacktrack (l r : List String) : Nat → Nat → Nat → List DiffOp
  | 0, _, _ => []
  | fuel + 1, i, j =>
    match specStep l r i j with
    | none => []
    | some (op, i', j') => op :: specBacktrack l r fuel i' j'

/-- The source's backtracking loop computes exactly the specification's
backtrack. -/
theorem specBacktrack_eq_collectOpsAux (l r : List String) :
    ∀ fuel i j, specBacktrack l r fuel i j = collectOpsAux l r fuel i j := by
  intro fuel
  induction fuel with
  | zero => intro i j; rfl
  | succ fuel ih =>
    intro i j
    by_cases h0 : i = 0 ∧ j = 0
    · obtain ⟨rfl, rfl⟩ := h0
      rw [collectOpsAux_zero_zero]
      simp [specBacktrack, specStep]
    · simp only [specBacktrack, specStep, collectOpsAux]
      rw [if_neg h0]
      by_cases h1 : i > 0 ∧ j > 0 ∧ l.getD (i - 1) "" = r.getD (j - 1) ""
      · rw [if_pos h1, if_pos h1]
        simp [ih]
      · rw [if_neg h1, if_neg h1]
        by_cases h2 : j > 0 ∧ (i = 0 ∨ dpT l r i (j - 1) ≥ dpT l r (i - 1) j)
        · rw [if_pos h2, if_pos h2]
          simp [ih]
        · rw [if_neg h2, if_neg h2]
          have h3 : i > 0 := by
            rcases Nat.eq_zero_or_pos i with hi | hi
            · exfalso
              rcases Nat.eq_zero_or_pos j with hj | hj
              · exact h0 ⟨hi, hj⟩
              · exact h2 ⟨hj, Or.inl hi⟩
            · exact hi
          rw [if_pos h3]
          simp [ih]

/-- The forward operation sequence consumes exactly the left lines (in order)
and exactly the right lines (in order). -/
theorem collectOps_lines (l r : List String) :
    (collectOps l r).filterMap opLeftLine = l ∧
    (collectOps l r).filterMap opRightLine = r := by
  unfold collectOps
  have H := collectOpsAux_lines l r (l.length + r.length) l.length r.length
    (le_refl _) (le_refl _) (le_refl _)
  constructor
  · rw [List.filterMap_reverse, H.1, List.reverse_reverse, List.take_length]
  · rw [List.filterMap_reverse, H.2, List.reverse_reverse, List.take_length]

theorem filterMap_opLeftLine (ops : List DiffOp) :
    ops.filterMap opLeftLine = (ops.filter isLeftOp).map (fun op => op.line) :=
  filterMap_ite_eq_map_filter isLeftOp (fun op => op.line) ops

theorem filterMap_opRightLine (ops : List DiffOp) :
    ops.filterMap opRightLine = (ops.filter isRightOp).map (fun op => op.line) :=
  filterMap_ite_eq_map_filter isRightOp (fun op => op.line) ops

theorem filterMap_rowLeft (rows : List DiffLine) :
    rows.filterMap rowLeft =
      (rows.filter (fun row => isLeftStatus row.status)).map (fun row => row.left) := by
  induction rows with
  | nil => rfl
  | cons a rows ih =>
    by_cases h : isLeftStatus a.status <;>
      simp [rowLeft, List.filter_cons, List.filterMap_cons, h, ih]

theorem filterMap_rowRight (rows : List DiffLine) :
    rows.filterMap rowRight =
      (rows.filter (fun row => isRightStatus row.status)).map (fun row => row.right) := by
  induction rows with
  | nil => rfl
  | cons a rows ih =>
    by_cases h : isRightStatus a.status <;>
      simp [rowRight, List.filter_cons, List.filterMap_cons, h, ih]

theorem collectOps_countP_left (l r : List String) :
    (collectOps l r).countP isLeftOp = l.length := by
  have h1 := (collectOps_lines l r).1
  rw [filterMap_opLeftLine] at h1
  have h2 := congrArg List.length h1
  simpa [List.countP_eq_length_filter] using h2

theorem collectOps_countP_right (l r : List String) :
    (collectOps l r).countP isRightOp = r.length := by
  have h1 := (collectOps_lines l r).2
  rw [filterMap_opRightLine] at h1
  have h2 := congrArg List.length h1
  simpa [List.countP_eq_length_filter] using h2

/-- Left contents of the output rows, in order, are exactly the left input
lines; similarly on the right. -/
theorem buildLineDiff_contents (A B : String) :
    ((buildLineDiff A B).filter (fun row => isLeftStatus row.status)).map
        (fun row => row.left) = splitLines A ∧
    ((buildLineDiff A B).filter (fun row => isRightStatus row.status)).map
        (fun row => row.right) = splitLines B := by
  unfold buildLineDiff
  have HC := toRows_contents (collectOps (splitLines A) (splitLines B)) 1 1
  have HL := (collectOps_lines (splitLines A) (splitLines B)).1
  have HR := (collectOps_lines (splitLines A) (splitLines B)).2
  constructor
  · rw [← filterMap_rowLeft, HC.1, HL]
  · rw [← filterMap_rowRight, HC.2, HR]

/-- Row counts by side. -/
theorem buildLineDiff_counts (A B : String) :
    ((buildLineDiff A B).filter (fun row => isLeftStatus row.status)).length =
        (splitLines A).length ∧
    ((buildLineDiff A B).filter (fun row => isRightStatus row.status)).length =
        (splitLines B).length := by
  have H := buildLineDiff_contents A B
  constructor
  · have := congrArg List.length H.1
    simpa using this
  · have := congrArg List.length H.2
    simpa using this

/-- Fuel irrelevance for the word backtrack, mirroring
`collectOpsAux_fuel_congr`. -/
theorem buildWordAux_fuel_congr (lw rw : List String) :
    ∀ fuel fuel' i j acc, i + j ≤ fuel → i + j ≤ fuel' →
      buildWordAux lw rw fuel i j acc = buildWordAux lw rw fuel' i j acc := by
  intro fuel
  induction fuel with
  | zero =>
    intro fuel' i j acc h h'
    obtain ⟨rfl, rfl⟩ : i = 0 ∧ j = 0 := by omega
    cases fuel' with
    | zero => rfl
    | succ fuel' => simp [buildWordAux]
  | succ fuel ih =>
    intro fuel' i j acc h h'
    cases fuel' with
    | zero =>
      obtain ⟨rfl, rfl⟩ : i = 0 ∧ j = 0 := by omega
      simp [buildWordAux]
    | succ fuel' =>
      simp only [buildWordAux]
      by_cases h1 : i > 0 ∧ j > 0 ∧ lw.getD (i - 1) "" = rw.getD (j - 1) ""
      · have hi0 : 0 < i := h1.1
        have hj0 : 0 < j := h1.2.1
        rw [if_pos h1, if_pos h1, ih fuel' (i - 1) (j - 1) _ (by omega) (by omega)]
      · rw [if_neg h1, if_neg h1]
        by_cases h2 : j > 0 ∧ (i = 0 ∨ dpT lw rw i (j - 1) ≥ dpT lw rw (i - 1) j)
        · have hj0 : 0 < j := h2.1
          rw [if_pos h2, if_pos h2, ih fuel' i (j - 1) _ (by omega) (by omega)]
        · rw [if_neg h2, if_neg h2]
          by_cases h3 : i > 0
          · rw [if_pos h3, if_pos h3, ih fuel' (i - 1) j _ (by omega) (by omega)]
          · rw [if_neg h3, if_neg h3]

/-- One iteration of `collectOps`'s loop emits one operation and strictly
decreases `i + j`. -/
theorem collectOpsAux_progress (l r : List String) (fuel i j : Nat)
    (h : 0 < i + j) :
    ∃ op i' j', collectOpsAux l r (fuel + 1) i j =
      op :: collectOpsAux l r fuel i' j' ∧ i' + j' < i + j := by
  simp only [collectOpsAux]
  by_cases h1 : i > 0 ∧ j > 0 ∧ l.getD (i - 1) "" = r.getD (j - 1) ""
  · rw [if_pos h1]
    exact ⟨_, i - 1, j - 1, rfl, by
      have := h1.1
      have := h1.2.1
      omega⟩
  · rw [if_neg h1]
    by_cases h2 : j > 0 ∧ (i = 0 ∨ dpT l r i (j - 1) ≥ dpT l r (i - 1) j)
    · rw [if_pos h2]
      exact ⟨_, i, j - 1, rfl, by
        have := h2.1
        omega⟩
    · rw [if_neg h2]
      by_cases h3 : i > 0
      · rw [if_pos h3]
        exact ⟨_, i - 1, j, rfl, by omega⟩
      · exfalso
        have hi0 : i = 0 := by omega
        exact h2 ⟨by omega, Or.inl hi0⟩

/-- One iteration of `buildWordDiff`'s loop strictly decreases `i + j`. -/
theorem buildWordAux_progress (lw rw : List String) (fuel i j : Nat)
    (acc : List WordPart × List WordPart) (h : 0 < i + j) :
    ∃ acc' i' j', buildWordAux lw rw (fuel + 1) i j acc =
      buildWordAux lw rw fuel i' j' acc' ∧ i' + j' < i + j := by
  simp only [buildWordAux]
  by_cases h1 : i > 0 ∧ j > 0 ∧ lw.getD (i - 1) "" = rw.getD (j - 1) ""
  · rw [if_pos h1]
    exact ⟨_, i - 1, j - 1, rfl, by
      have := h1.1
      have := h1.2.1
      omega⟩
  · rw [if_neg h1]
    by_cases h2 : j > 0 ∧ (i = 0 ∨ dpT lw rw i (j - 1) ≥ dpT lw rw (i - 1) j)
    · rw [if_pos h2]
      exact ⟨_, i, j - 1, rfl, by
        have := h2.1
        omega⟩
    · rw [if_neg h2]
      by_cases h3 : i > 0
      · rw [if_pos h3]
        exact ⟨_, i - 1, j, rfl, by omega⟩
      · exfalso
        have hi0 : i = 0 := by omega
        exact h2 ⟨by omega, Or.inl hi0⟩

/-! ### The claims -/

/-- C1 : the operation sequence produced by `collectOps` is exactly the
reversal of the specified backtrack of the LCS table from `(m, n)` to
`(0, 0)` (diagonal `same` step on equal lines, else `added` when `j > 0` and
(`i = 0` or `dp[i][j-1] ≥ dp[i-1][j]`), else `removed`); in particular, at an
exact tie `dp[i][j-1] = dp[i-1][j]` with both moves available the emitted
step is `added`, never `removed`. -/
theorem claim_backtrack_policy (l r : List String) :
    collectOps l r =
      (specBacktrack l r (l.length + r.length) l.length r.length).reverse ∧
    ∀ fuel i j, 0 < i → 0 < j → l.getD (i - 1) "" ≠ r.getD (j - 1) "" →
      dpT l r i (j - 1) = dpT l r (i - 1) j →
      collectOpsAux l r (fuel + 1) i j =
        ⟨OpType.added, r.getD (j - 1) ""⟩ :: collectOpsAux l r fuel i (j - 1) := by
  constructor
  · unfold collectOps
    rw [specBacktrack_eq_collectOpsAux]
  · intro fuel i j hi hj hne heq
    simp only [collectOpsAux]
    rw [if_neg (fun hc => hne hc.2.2), if_pos ⟨hj, Or.inr (le_of_eq heq.symm)⟩]

/-- Witness for C1: a concrete run, and the tie-break at the concrete tied
state `(1, 1)` for inputs `["a"]`, `["b"]` where `dp[1][0] = dp[0][1] = 0`. -/
theorem claim_backtrack_policy_witness :
    collectOps ["a"] ["b"] = (specBacktrack ["a"] ["b"] 2 1 1).reverse ∧
    collectOpsAux ["a"] ["b"] 2 1 1 =
      ⟨OpType.added, "b"⟩ :: collectOpsAux ["a"] ["b"] 1 1 0 :=
  ⟨(claim_backtrack_policy ["a"] ["b"]).1,
   (claim_backtrack_policy ["a"] ["b"]).2 1 1 1 (by decide) (by decide)
     (by decide) (by decide)⟩

/-- C2, counterexample : the claim asserts `alignLines(A, B)` and
`alignLines(B, A)` always produce row sequences of equal length (with a
positional status flip); for `A = "a\na"`, `B = "a\nb"` the two lengths are
`3` and `2`. -/
theorem claim_swap_symmetry_cex :
    ¬ (buildLineDiff "a\na" "a\nb").length = (buildLineDiff "a\nb" "a\na").length := by
  decide

/-- C2, amended : swapping the inputs preserves the number of `same` rows
(both equal the LCS table entry, and the table is symmetric), and the count
of rows carrying left content in one direction equals the count of rows
carrying right content in the other; but the row sequences need not have
equal length and there is no positional added/removed correspondence. -/
theorem claim_swap_symmetry_amended (A B : String) :
    (buildLineDiff A B).countP (fun row => row.status == LineStatus.same) =
      (buildLineDiff B A).countP (fun row => row.status == LineStatus.same) ∧
    (buildLineDiff A B).countP (fun row => isLeftStatus row.status) =
      (buildLineDiff B A).countP (fun row => isRightStatus row.status) ∧
    (buildLineDiff A B).countP (fun row => isRightStatus row.status) =
      (buildLineDiff B A).countP (fun row => isLeftStatus row.status) := by
  have hsame : ∀ X Y : String,
      (buildLineDiff X Y).countP (fun row => row.status == LineStatus.same) =
        dpT (splitLines X) (splitLines Y) (splitLines X).length
          (splitLines Y).length := by
    intro X Y
    unfold buildLineDiff
    rw [toRows_same_count]
    unfold collectOps
    rw [List.countP_reverse]
    exact collectOpsAux_same_count _ _ _ _ _ (le_refl _)
  refine ⟨?_, ?_, ?_⟩
  · rw [hsame A B, hsame B A, dpT_comm]
  · rw [List.countP_eq_length_filter, List.countP_eq_length_filter,
      (buildLineDiff_counts A B).1, (buildLineDiff_counts B A).2]
  · rw [List.countP_eq_length_filter, List.countP_eq_length_filter,
      (buildLineDiff_counts A B).2, (buildLineDiff_counts B A).1]

/-- C3 : a `removed` operation immediately followed by an `added` operation
is always merged into one `changed` row, and only immediately-adjacent pairs
merge: in any operation sequence, a `removed` followed directly by two
`added` operations yields one `changed` row (the removed line paired with the
first added line) followed by one plain `added` row for the second. -/
theorem claim_adjacent_merge :
    (∀ x y rest ln rn,
      toRows (⟨OpType.removed, x⟩ :: ⟨OpType.added, y⟩ :: rest) ln rn =
        ⟨x, y, LineStatus.changed, some ln, some rn⟩ ::
          toRows rest (ln + 1) (rn + 1)) ∧
    (∀ pre x y z post ln rn,
      toRows
          (pre ++ ⟨OpType.removed, x⟩ :: ⟨OpType.added, y⟩ ::
            ⟨OpType.added, z⟩ :: post) ln rn =
        toRows pre ln rn ++
          ⟨x, y, LineStatus.changed, some (ln + pre.countP isLeftOp),
            some (rn + pre.countP isRightOp)⟩ ::
          ⟨"", z, LineStatus.added, none,
            some (rn + pre.countP isRightOp + 1)⟩ ::
          toRows post (ln + pre.countP isLeftOp + 1)
            (rn + pre.countP isRightOp + 1 + 1)) := by
  constructor
  · intro x y rest ln rn
    rfl
  · intro pre x y z post ln rn
    rw [toRows_append
      (⟨OpType.removed, x⟩ :: ⟨OpType.added, y⟩ :: ⟨OpType.added, z⟩ :: post)
      (by intro y' t hc; simp at hc) pre ln rn]
    rfl

/-- C4 : rows with left content (`same`/`changed`/`removed`) are in bijection
with the left input lines — same count, same contents, same order — and
symmetrically for right content (`same`/`changed`/`added`). -/
theorem claim_conservation (A B : String) :
    ((buildLineDiff A B).filter (fun row => isLeftStatus row.status)).length =
        (splitLines A).length ∧
    ((buildLineDiff A B).filter (fun row => isLeftStatus row.status)).map
        (fun row => row.left) = splitLines A ∧
    ((buildLineDiff A B).filter (fun row => isRightStatus row.status)).length =
        (splitLines B).length ∧
    ((buildLineDiff A B).filter (fun row => isRightStatus row.status)).map
        (fun row => row.right) = splitLines B :=
  ⟨(buildLineDiff_counts A B).1, (buildLineDiff_contents A B).1,
   (buildLineDiff_counts A B).2, (buildLineDiff_contents A B).2⟩

/-- C5 : the left line numbers, over the whole row sequence, are exactly the
sequence `1, 2, 3, …` (one number per row with left content, in order), and
likewise on the right; a row carries a line number on a side exactly when its
status consumes a line of that side. -/
theorem claim_monotonic_numbering (A B : String) :
    (buildLineDiff A B).filterMap (fun row => row.leftNumber) =
        List.range' 1 (splitLines A).length ∧
    (buildLineDiff A B).filterMap (fun row => row.rightNumber) =
        List.range' 1 (splitLines B).length ∧
    (buildLineDiff A B).all (fun row =>
      (row.leftNumber.isSome == isLeftStatus row.status) &&
        (row.rightNumber.isSome == isRightStatus row.status)) = true := by
  have h1 := (toRows_numbers (collectOps (splitLines A) (splitLines B)) 1 1).1
  have h2 := (toRows_numbers (collectOps (splitLines A) (splitLines B)) 1 1).2
  rw [collectOps_countP_left] at h1
  rw [collectOps_countP_right] at h2
  exact ⟨h1, h2, toRows_presence _ 1 1⟩

/-- C6 : diffing a string against itself yields one `same` row per line, with
equal contents and both line numbers counting up from `1`; in particular the
empty/empty diff is a single `same` row with empty contents and numbers `1`. -/
theorem claim_identity_diff (s : String) :
    buildLineDiff s s =
      ((List.range' 1 (splitLines s).length).zip (splitLines s)).map
        (fun p => ⟨p.2, p.2, LineStatus.same, some p.1, some p.1⟩) ∧
    (buildLineDiff s s).length = (splitLines s).length ∧
    buildLineDiff "" "" = [⟨"", "", LineStatus.same, some 1, some 1⟩] := by
  have h1 : buildLineDiff s s =
      ((List.range' 1 (splitLines s).length).zip (splitLines s)).map
        (fun p => ⟨p.2, p.2, LineStatus.same, some p.1, some p.1⟩) := by
    unfold buildLineDiff
    rw [collectOps_self, toRows_sames]
  refine ⟨h1, ?_, by decide⟩
  rw [h1]
  simp

/-- C7 : `buildWordDiff` tokenizes each line by trimming and splitting on
whitespace runs, records the leading-whitespace run of each line, and the
part texts on each side are exactly that side's word list in order — so
joining them with single spaces reconstructs the trimmed,
whitespace-collapsed line. -/
theorem claim_word_reconstruction (L R : String) :
    (buildWordDiff L R).leftParts.map (fun p => p.text) = splitWords L ∧
    (buildWordDiff L R).rightParts.map (fun p => p.text) = splitWords R ∧
    (buildWordDiff L R).leadingLeft = leadingWs L ∧
    (buildWordDiff L R).leadingRight = leadingWs R ∧
    String.intercalate " " ((buildWordDiff L R).leftParts.map (fun p => p.text)) =
      String.intercalate " " (splitWords L) ∧
    String.intercalate " " ((buildWordDiff L R).rightParts.map (fun p => p.text)) =
      String.intercalate " " (splitWords R) := by
  have H := buildWordAux_texts (splitWords L) (splitWords R)
    ((splitWords L).length + (splitWords R).length) (splitWords L).length
    (splitWords R).length [] [] (le_refl _) (le_refl _) (le_refl _)
  have h1 : (buildWordDiff L R).leftParts.map (fun p => p.text) = splitWords L := by
    have h := H.1
    simp only [List.map_nil, List.append_nil, List.take_length] at h
    simpa [buildWordDiff] using h
  have h2 : (buildWordDiff L R).rightParts.map (fun p => p.text) = splitWords R := by
    have h := H.2
    simp only [List.map_nil, List.append_nil, List.take_length] at h
    simpa [buildWordDiff] using h
  exact ⟨h1, h2, rfl, rfl, by rw [h1], by rw [h2]⟩

/-- C8 : both backtracking loops are total: the result is independent of the
fuel once it reaches `i + j` (so the `while` loop terminates in at most
`i + j` iterations), each iteration emits progress and strictly decreases
`i + j`, and every emitted operation carries a line of one of the inputs (all
array accesses are in bounds). -/
theorem claim_totality_termination :
    (∀ (l r : List String) (fuel i j : Nat), i + j ≤ fuel →
        collectOpsAux l r fuel i j = collectOpsAux l r (i + j) i j) ∧
    (∀ (l r : List String) (fuel i j : Nat), 0 < i + j →
        ∃ op i' j', collectOpsAux l r (fuel + 1) i j =
            op :: collectOpsAux l r fuel i' j' ∧ i' + j' < i + j) ∧
    (∀ (lw rw : List String) (fuel i j : Nat)
        (acc : List WordPart × List WordPart), i + j ≤ fuel →
        buildWordAux lw rw fuel i j acc = buildWordAux lw rw (i + j) i j acc) ∧
    (∀ (lw rw : List String) (fuel i j : Nat)
        (acc : List WordPart × List WordPart), 0 < i + j →
        ∃ acc' i' j', buildWordAux lw rw (fuel + 1) i j acc =
            buildWordAux lw rw fuel i' j' acc' ∧ i' + j' < i + j) ∧
    (∀ (l r : List String) (op : DiffOp), op ∈ collectOps l r →
        op.line ∈ l ∨ op.line ∈ r) := by
  refine ⟨?_, ?_, ?_, ?_, ?_⟩
  · intro l r fuel i j h
    exact collectOpsAux_fuel_congr l r fuel (i + j) i j h (le_refl _)
  · intro l r fuel i j h
    exact collectOpsAux_progress l r fuel i j h
  · intro lw rw fuel i j acc h
    exact buildWordAux_fuel_congr lw rw fuel (i + j) i j acc h (le_refl _)
  · intro lw rw fuel i j acc h
    exact buildWordAux_progress lw rw fuel i j acc h
  · intro l r op hop
    exact collectOpsAux_mem l r (l.length + r.length) l.length r.length
      (le_refl _) (le_refl _) op (List.mem_reverse.mp hop)

/-- Witness for C8: concrete instances of each conjunct for the inputs
`["a"]`, `["b"]`. -/
theorem claim_totality_termination_witness :
    collectOpsAux ["a"] ["b"] 5 1 1 = collectOpsAux ["a"] ["b"] 2 1 1 ∧
    (∃ op i' j', collectOpsAux ["a"] ["b"] 3 1 1 =
        op :: collectOpsAux ["a"] ["b"] 2 i' j' ∧ i' + j' < 2) ∧
    buildWordAux ["a"] ["b"] 5 1 1 ([], []) =
      buildWordAux ["a"] ["b"] 2 1 1 ([], []) ∧
    (∃ acc' i' j', buildWordAux ["a"] ["b"] 3 1 1 ([], []) =
        buildWordAux ["a"] ["b"] 2 i' j' acc' ∧ i' + j' < 2) ∧
    ((⟨OpType.added, "b"⟩ : DiffOp).line ∈ ["a"] ∨
      (⟨OpType.added, "b"⟩ : DiffOp).line ∈ ["b"]) :=
  ⟨claim_totality_termination.1 ["a"] ["b"] 5 1 1 (by decide),
   claim_totality_termination.2.1 ["a"] ["b"] 2 1 1 (by decide),
   claim_totality_termination.2.2.1 ["a"] ["b"] 5 1 1 ([], []) (by decide),
   claim_totality_termination.2.2.2.1 ["a"] ["b"] 2 1 1 ([], []) (by decide),
   claim_totality_termination.2.2.2.2 ["a"] ["b"] ⟨OpType.added, "b"⟩ (by decide)⟩

/-- C9 : every `changed` row pairs two different lines: equal lines at the
backtrack cursor always take the `same` branch, so an adjacent
`removed`/`added` pair (the only source of a `changed` row) carries two
distinct lines. -/
theorem claim_changed_rows_differ (A B : String) :
    (buildLineDiff A B).all (fun row =>
      !(row.status == LineStatus.changed && row.left == row.right)) = true := by
  unfold buildLineDiff
  exact toRows_changed_ne _ 1 1 (collectOps_chain _ _)

/-- C10 : `leftParts` never contains an `added` part, `rightParts` never
contains a `removed` part, and the `same` parts on the two sides agree text
for text, in order. -/
theorem claim_word_kinds (L R : String) :
    (buildWordDiff L R).leftParts.all (fun p => !(p.kind == OpType.added)) = true ∧
    (buildWordDiff L R).rightParts.all (fun p => !(p.kind == OpType.removed)) = true ∧
    ((buildWordDiff L R).leftParts.filter (fun p => p.kind == OpType.same)).map
        (fun p => p.text) =
      ((buildWordDiff L R).rightParts.filter (fun p => p.kind == OpType.same)).map
        (fun p => p.text) := by
  have H := buildWordAux_kinds (splitWords L) (splitWords R)
    ((splitWords L).length + (splitWords R).length) (splitWords L).length
    (splitWords R).length [] [] rfl rfl rfl
  simpa [buildWordDiff] using H

end ToolkitDiff
